import Mathlib

/-!
Shallow embedding of `src/scripts/pf.py`, the particle-filter localization node.

Python floats are modelled as exact rationals wherever only field arithmetic and
comparisons occur, and as real numbers wherever trigonometry is involved.
Python exceptions (ZeroDivisionError, numpy and random.choices errors) are
modelled with Option: none is a raised exception.  Random draws are modelled as
oracle parameters supplying the values that would have been drawn.
-/

/-- The Particle namedtuple of pf.py (line 35): a weighted pose hypothesis. -/
structure Particle where
  x : ℚ
  y : ℚ
  theta : ℚ
  weight : ℚ
deriving DecidableEq

/-- The PoseTuple namedtuple of pf.py (line 40): an (x, y, theta) pose. -/
structure PoseTuple where
  x : ℚ
  y : ℚ
  theta : ℚ
deriving DecidableEq

/-- The weight total sum(p.weight for p in particles) of line 432. -/
def totalWeight (particles : List Particle) : ℚ :=
  (particles.map Particle.weight).sum

/-- Python division: raises ZeroDivisionError on a zero divisor, modelled as none. -/
def pydiv (a b : ℚ) : Option ℚ :=
  if b = 0 then none else some (a / b)

/-- Applies a fallible operation to each element in order, failing when any
application fails.  This models a Python list comprehension whose body may raise. -/
def traverseOption (f : α → Option β) : List α → Option (List β)
  | [] => some []
  | a :: l =>
    match f a with
    | none => none
    | some b => (traverseOption f l).map (fun bs => b :: bs)

/-- Lines 431-436: divide every weight by the total.  Python raises
ZeroDivisionError when the total is zero and the list is nonempty; on an empty
list no division executes and the empty list is returned. -/
def normalize_weights (particles : List Particle) : Option (List Particle) :=
  let total := totalWeight particles
  traverseOption (fun p => (pydiv p.weight total).map (fun w => ⟨p.x, p.y, p.theta, w⟩))
    particles

/-- Model of numpy.average with explicit weights: the sum of weight-value products
divided by the weight total; numpy raises ZeroDivisionError when the weights sum
to zero. -/
def npAverage (values weights : List ℚ) : Option ℚ :=
  if weights.sum = 0 then none
  else some ((List.zipWith (fun w v => w * v) weights values).sum / weights.sum)

/-- Lines 396-404 of set_particles: normalize the weights, then average x, y and
theta of the normalized particles, weighted by the weights of the input
particles (line 404 reads the weights from the unnormalized argument). -/
def poseEstimate (particles : List Particle) : Option (ℚ × ℚ × ℚ) := do
  let ps ← normalize_weights particles
  let ws := particles.map Particle.weight
  let ex ← npAverage (ps.map Particle.x) ws
  let ey ← npAverage (ps.map Particle.y) ws
  let eth ← npAverage (ps.map Particle.theta) ws
  some (ex, ey, eth)

/-- Running totals of a weight list, as computed by itertools.accumulate inside
random.choices. -/
def cumWeights (acc : ℚ) : List ℚ → List ℚ
  | [] => []
  | w :: ws => (acc + w) :: cumWeights (acc + w) ws

/-- bisect.bisect_right bounded by hi: the first index i < hi whose running total
exceeds the target, and hi when there is none. -/
def bisectIdx (cum : List ℚ) (target : ℚ) (hi : ℕ) : ℕ :=
  match (cum.take hi).findIdx? (fun c => decide (target < c)) with
  | some i => i
  | none => hi

/-- Model of random.choices(population, weights, k): raises (none) when the
weight total is not positive; otherwise each of the k uniform draws r from
[0, 1), supplied in rs, selects the element at bisect(cum, r * total, 0, n - 1). -/
def randomChoices (population : List Particle) (weights : List ℚ) (rs : List ℚ) :
    Option (List Particle) :=
  let cum := cumWeights 0 weights
  let total := cum.getLastD 0
  if total ≤ 0 then none
  else
    some (rs.map (fun r =>
      population.getD (bisectIdx cum (r * total) (population.length - 1)) ⟨0, 0, 0, 0⟩))

/-- Lines 371-391: draw k particles with probability proportional to weight, then
jitter each coordinate through sample_normal and reset the weight to 1.  The k
uniform draws of random.choices are supplied in rs; the sample_normal jitter
draws (helper_functions.py, outside src) are supplied by the oracles jx, jy,
jtheta giving the value drawn for each chosen particle. -/
def sample_particles (particles : List Particle) (jx jy jtheta : Particle → ℚ)
    (rs : List ℚ) : Option (List Particle) :=
  (randomChoices particles (particles.map Particle.weight) rs).map
    (fun choices => choices.map (fun c => ⟨jx c, jy c, jtheta c, 1⟩))

section NormalizeTheorems

/-- Helper: when the divisor is nonzero, the normalization comprehension succeeds
and divides every weight by it. -/
theorem traverse_normalize_eq (t : ℚ) (h : t ≠ 0) (l : List Particle) :
    traverseOption
        (fun p => (pydiv p.weight t).map (fun w => (⟨p.x, p.y, p.theta, w⟩ : Particle))) l =
      some (l.map (fun p => (⟨p.x, p.y, p.theta, p.weight / t⟩ : Particle))) := by
  have hfun : (fun p : Particle =>
      (pydiv p.weight t).map (fun w => (⟨p.x, p.y, p.theta, w⟩ : Particle))) =
      fun p : Particle => some (⟨p.x, p.y, p.theta, p.weight / t⟩ : Particle) := by
    funext p
    simp [pydiv, h]
  rw [hfun]
  induction l with
  | nil => rfl
  | cons p l ih => simp [traverseOption, ih]

/-- Helper: normalize_weights with nonzero total is the pure weight division. -/
theorem normalize_weights_eq (particles : List Particle)
    (h : totalWeight particles ≠ 0) :
    normalize_weights particles =
      some (particles.map
        (fun p => (⟨p.x, p.y, p.theta, p.weight / totalWeight particles⟩ : Particle))) := by
  unfold normalize_weights
  exact traverse_normalize_eq (totalWeight particles) h particles

/-- Helper: dividing each summand divides the sum. -/
theorem sum_map_div (l : List Particle) (t : ℚ) :
    (l.map (fun p => p.weight / t)).sum = totalWeight l / t := by
  induction l with
  | nil => simp [totalWeight]
  | cons p l ih => simp [totalWeight, List.sum_cons, add_div] at *; rw [ih]

/-- Claim C6: for every particle list whose weights have a strictly positive
total, normalize_weights succeeds and returns a list of the same length in which
every particle keeps its x, y and theta unchanged and the weights sum exactly
to 1 (the embedding is in exact rational arithmetic, so the floating tolerance
is 0). -/
theorem normalize_weights_spec (particles : List Particle)
    (h : 0 < totalWeight particles) :
    ∃ out, normalize_weights particles = some out ∧
      out.length = particles.length ∧
      out.map (fun p => (p.x, p.y, p.theta)) =
        particles.map (fun p => (p.x, p.y, p.theta)) ∧
      totalWeight out = 1 := by
  refine ⟨_, normalize_weights_eq particles h.ne', ?_, ?_, ?_⟩
  · simp
  · simp
  · show totalWeight (particles.map (fun p => ⟨p.x, p.y, p.theta, p.weight / totalWeight particles⟩)) = 1
    rw [totalWeight, List.map_map]
    have : (Particle.weight ∘ fun p : Particle =>
        (⟨p.x, p.y, p.theta, p.weight / totalWeight particles⟩ : Particle)) =
        (fun p : Particle => p.weight / totalWeight particles) := rfl
    rw [this, sum_map_div, div_self h.ne']

/-- Witness for claim C6 at a concrete two-particle population with total 4. -/
theorem normalize_weights_spec_witness :
    0 < totalWeight [⟨0, 0, 0, 1⟩, ⟨1, 2, 3, 3⟩] ∧
      ∃ out, normalize_weights [⟨0, 0, 0, 1⟩, ⟨1, 2, 3, 3⟩] = some out ∧
        out.length = ([⟨0, 0, 0, 1⟩, ⟨1, 2, 3, 3⟩] : List Particle).length ∧
        out.map (fun p => (p.x, p.y, p.theta)) =
          ([⟨0, 0, 0, 1⟩, ⟨1, 2, 3, 3⟩] : List Particle).map (fun p => (p.x, p.y, p.theta)) ∧
        totalWeight out = 1 :=
  ⟨by norm_num [totalWeight], normalize_weights_spec [⟨0, 0, 0, 1⟩, ⟨1, 2, 3, 3⟩]
    (by norm_num [totalWeight])⟩

/-- Claim C10: normalize_weights divides every weight by the total with no guard:
any nonzero total succeeds, any nonnegative population containing a strictly
positive weight succeeds (the error branch is unreachable), and any nonempty
all-zero-weight population reaches the unguarded division by zero and raises. -/
theorem normalize_weights_division_safety :
    (∀ ps : List Particle, totalWeight ps ≠ 0 →
      ∃ out, normalize_weights ps = some out) ∧
    (∀ ps : List Particle, (∀ p ∈ ps, 0 ≤ p.weight) → (∃ p ∈ ps, 0 < p.weight) →
      ∃ out, normalize_weights ps = some out) ∧
    (∀ ps : List Particle, ps ≠ [] → (∀ p ∈ ps, p.weight = 0) →
      normalize_weights ps = none) := by
  refine ⟨fun ps h => ⟨_, normalize_weights_eq ps h⟩, fun ps hnn hpos => ?_, fun ps hne hz => ?_⟩
  · obtain ⟨p, hp, hppos⟩ := hpos
    have hle : p.weight ≤ totalWeight ps := by
      refine List.single_le_sum ?_ _ (List.mem_map_of_mem Particle.weight hp)
      intro w hw
      obtain ⟨q, hq, rfl⟩ := List.mem_map.mp hw
      exact hnn q hq
    exact ⟨_, normalize_weights_eq ps (lt_of_lt_of_le hppos hle).ne'⟩
  · have htot : totalWeight ps = 0 := by
      rw [totalWeight]
      refine List.sum_eq_zero ?_
      intro w hw
      obtain ⟨q, hq, rfl⟩ := List.mem_map.mp hw
      exact hz q hq
    obtain ⟨p, l, rfl⟩ := List.exists_cons_of_ne_nil hne
    have hw0 : p.weight = 0 := hz p (List.mem_cons_self p l)
    simp [normalize_weights, traverseOption, pydiv, htot, hw0]

/-- Witness for claim C10: a single zero-weight particle raises, a single
positive-weight particle succeeds. -/
theorem normalize_weights_division_safety_witness :
    normalize_weights [⟨0, 0, 0, 0⟩] = none ∧
      ∃ out, normalize_weights [⟨0, 0, 0, 2⟩] = some out :=
  ⟨normalize_weights_division_safety.2.2 [⟨0, 0, 0, 0⟩] (by simp) (by simp),
   normalize_weights_division_safety.1 [⟨0, 0, 0, 2⟩] (by norm_num [totalWeight])⟩

end NormalizeTheorems

section ResampleEstimateTheorems

/-- Helper: the last running total is the starting value plus the sum. -/
theorem cumWeights_getLastD (acc : ℚ) (ws : List ℚ) :
    (cumWeights acc ws).getLastD acc = acc + ws.sum := by
  induction ws generalizing acc with
  | nil => simp [cumWeights]
  | cons w ws ih =>
    rw [cumWeights, List.getLastD_cons, ih (acc + w), List.sum_cons, add_assoc]

/-- Claim C7: given nonnegative input weights with at least one strictly positive,
and the k uniform draws of random.choices, sample_particles succeeds and returns
exactly k particles, independent of the input population size, every one with
weight exactly 1. -/
theorem sample_particles_spec (particles : List Particle)
    (jx jy jtheta : Particle → ℚ) (rs : List ℚ) (k : ℕ)
    (hk : rs.length = k)
    (hnn : ∀ p ∈ particles, 0 ≤ p.weight)
    (hpos : ∃ p ∈ particles, 0 < p.weight) :
    ∃ out, sample_particles particles jx jy jtheta rs = some out ∧
      out.length = k ∧ ∀ p ∈ out, p.weight = 1 := by
  obtain ⟨p, hp, hppos⟩ := hpos
  have hle : p.weight ≤ (particles.map Particle.weight).sum := by
    refine List.single_le_sum ?_ _ (List.mem_map_of_mem Particle.weight hp)
    intro w hw
    obtain ⟨q, hq, rfl⟩ := List.mem_map.mp hw
    exact hnn q hq
  have htot : 0 < (particles.map Particle.weight).sum := lt_of_lt_of_le hppos hle
  have hlast : (cumWeights 0 (particles.map Particle.weight)).getLastD 0 =
      (particles.map Particle.weight).sum := by
    rw [cumWeights_getLastD, zero_add]
  have hneg : ¬ ((cumWeights 0 (particles.map Particle.weight)).getLastD 0 ≤ 0) := by
    rw [hlast]
    exact not_le.mpr htot
  have hrc : sample_particles particles jx jy jtheta rs =
      some ((rs.map (fun r => particles.getD
          (bisectIdx (cumWeights 0 (particles.map Particle.weight))
            (r * (cumWeights 0 (particles.map Particle.weight)).getLastD 0)
            (particles.length - 1)) ⟨0, 0, 0, 0⟩)).map
        (fun c => (⟨jx c, jy c, jtheta c, 1⟩ : Particle))) := by
    simp only [sample_particles, randomChoices, if_neg hneg, Option.map_some']
  refine ⟨_, hrc, ?_, ?_⟩
  · simp [hk]
  · intro q hq
    simp only [List.mem_map] at hq
    obtain ⟨c, hc, rfl⟩ := hq
    rfl

/-- Witness for claim C7: one input particle of weight 2, three draws, output of
size 3 with unit weights. -/
theorem sample_particles_spec_witness :
    ([0, (1:ℚ)/2, 3/4] : List ℚ).length = 3 ∧
      (∀ p ∈ [(⟨0, 0, 0, 2⟩ : Particle)], 0 ≤ p.weight) ∧
      (∃ p ∈ [(⟨0, 0, 0, 2⟩ : Particle)], 0 < p.weight) ∧
      ∃ out, sample_particles [⟨0, 0, 0, 2⟩] (fun p => p.x) (fun p => p.y)
          (fun p => p.theta) [0, 1/2, 3/4] = some out ∧
        out.length = 3 ∧ ∀ p ∈ out, p.weight = 1 := by
  refine ⟨rfl, ?_, ?_, ?_⟩
  · intro p hp
    simp only [List.mem_singleton] at hp
    rw [hp]
    norm_num
  · exact ⟨⟨0, 0, 0, 2⟩, by simp, by norm_num⟩
  · refine sample_particles_spec [⟨0, 0, 0, 2⟩] (fun p => p.x) (fun p => p.y)
      (fun p => p.theta) [0, 1/2, 3/4] 3 rfl ?_ ?_
    · intro p hp
      simp only [List.mem_singleton] at hp
      rw [hp]
      norm_num
    · exact ⟨⟨0, 0, 0, 2⟩, by simp, by norm_num⟩

/-- Helper: zipping multiplication over two maps of the same list is a single map. -/
theorem zipWith_mul_map_same (f g : Particle → ℚ) (l : List Particle) :
    List.zipWith (fun w v => w * v) (l.map f) (l.map g) =
      l.map (fun p => f p * g p) := by
  induction l with
  | nil => rfl
  | cons p l ih => simp [ih]

/-- Claim C8: the pose estimate is the weighted arithmetic mean of x, y and theta
computed independently over the normalized particle set (theta as a raw scalar,
not a circular mean): each component is the sum of weight-value products divided
by the total weight. -/
theorem poseEstimate_weighted_mean (particles : List Particle)
    (h : 0 < totalWeight particles) :
    poseEstimate particles = some
      ((particles.map (fun p => p.weight * p.x)).sum / totalWeight particles,
       (particles.map (fun p => p.weight * p.y)).sum / totalWeight particles,
       (particles.map (fun p => p.weight * p.theta)).sum / totalWeight particles) := by
  have hws : (particles.map Particle.weight).sum = totalWeight particles := rfl
  have havg : ∀ f : Particle → ℚ,
      npAverage ((particles.map (fun p =>
          (⟨p.x, p.y, p.theta, p.weight / totalWeight particles⟩ : Particle))).map f)
        (particles.map Particle.weight) =
      some ((particles.map (fun p =>
          p.weight * f ⟨p.x, p.y, p.theta, p.weight / totalWeight particles⟩)).sum /
        totalWeight particles) := by
    intro f
    rw [npAverage, if_neg (by rw [hws]; exact h.ne'), hws, List.map_map]
    have hz : List.zipWith (fun w v => w * v) (particles.map Particle.weight)
        (particles.map (f ∘ fun p =>
          (⟨p.x, p.y, p.theta, p.weight / totalWeight particles⟩ : Particle))) =
        particles.map (fun p =>
          p.weight * f ⟨p.x, p.y, p.theta, p.weight / totalWeight particles⟩) :=
      zipWith_mul_map_same Particle.weight _ particles
    rw [hz]
  unfold poseEstimate
  rw [normalize_weights_eq particles h.ne']
  simp only [Option.bind_eq_bind, Option.some_bind, havg]

/-- Witness for claim C8: two half-weight particles at x = 0 and x = 2 with equal
y and theta give the estimate (1, 4, 1). -/
theorem poseEstimate_weighted_mean_witness :
    0 < totalWeight [⟨0, 4, 1, 1/2⟩, ⟨2, 4, 1, 1/2⟩] ∧
      poseEstimate [⟨0, 4, 1, 1/2⟩, ⟨2, 4, 1, 1/2⟩] = some (1, 4, 1) := by
  constructor
  · norm_num [totalWeight]
  · rw [poseEstimate_weighted_mean [⟨0, 4, 1, 1/2⟩, ⟨2, 4, 1, 1/2⟩]
      (by norm_num [totalWeight])]
    norm_num [totalWeight]

end ResampleEstimateTheorems

/-- Line 184 condition under which update returns without doing anything: the
planar delta magnitude is below 0.01 and the signed (not absolute) angular delta
is below 0.05.  Stated over the reals exactly as the code writes it, square root
included. -/
def minMotionSkipR (dx dy dtheta : ℝ) : Prop :=
  Real.sqrt (dx ^ 2 + dy ^ 2) < 0.01 ∧ dtheta < 0.05

/-- Decidable rational form of the line 184 check; equivalent to minMotionSkipR
by minMotionSkip_iff. -/
def minMotionSkip (d : PoseTuple) : Bool :=
  decide (d.x ^ 2 + d.y ^ 2 < 1 / 10000) && decide (d.theta < 1 / 20)

/-- Lines 176-181: the delta_pose between the stored pose and the current
odometry pose (stored minus current).  angle_diff lives in helper_functions.py,
outside src, and is passed as an oracle. -/
def delta_pose (angle_diff : ℚ → ℚ → ℚ) (last cur : PoseTuple) : PoseTuple :=
  ⟨last.x - cur.x, last.y - cur.y, angle_diff last.theta cur.theta⟩

/-- The mutable state of the update callback relevant to the cycle-skip logic. -/
structure FilterState where
  last_pose : Option PoseTuple
  particles : Option (List Particle)
deriving DecidableEq

/-- Lines 172-210 of update as a state transition on one odometry pose.  The
resample / motion / sensor / set_particles body (lines 193-209) is abstracted as
the cycle argument, since only the control flow around last_pose is at stake;
the second component reports the delta_pose used when a full cycle ran. -/
def updateStep (angle_diff : ℚ → ℚ → ℚ)
    (cycle : List Particle → PoseTuple → List Particle)
    (s : FilterState) (cur : PoseTuple) : FilterState × Option PoseTuple :=
  match s.last_pose, s.particles with
  | none, _ => (⟨some cur, s.particles⟩, none)
  | some _, none => (⟨some cur, s.particles⟩, none)
  | some last, some ps =>
    let d := delta_pose angle_diff last cur
    if minMotionSkip d then (s, none)
    else (⟨some cur, some (cycle ps d)⟩, some d)

section MotionThresholdTheorems

/-- Helper: the rational check is exactly the line 184 real check. -/
theorem minMotionSkip_iff (d : PoseTuple) :
    minMotionSkip d = true ↔ minMotionSkipR (d.x : ℝ) (d.y : ℝ) (d.theta : ℝ) := by
  rw [minMotionSkip, minMotionSkipR, Bool.and_eq_true, decide_eq_true_eq,
    decide_eq_true_eq, Real.sqrt_lt' (by norm_num : (0:ℝ) < 0.01),
    show ((0.01:ℝ)) ^ 2 = ((1 / 10000 : ℚ) : ℝ) by norm_num,
    show ((0.05:ℝ)) = ((1 / 20 : ℚ) : ℝ) by norm_num]
  constructor
  · rintro ⟨h1, h2⟩
    exact ⟨by exact_mod_cast h1, by exact_mod_cast h2⟩
  · rintro ⟨h1, h2⟩
    exact ⟨by exact_mod_cast h1, by exact_mod_cast h2⟩

/-- Claim C5 (code bug): line 184 compares the signed angular delta, not its
absolute value, so a pure-rotation delta of -1.0 radian with zero translation
satisfies the check and the cycle is skipped, while the claim requires such a
delta (angular magnitude 1.0, above the 0.05 threshold) to trigger a full
update cycle. -/
theorem minMotion_check_skips_negative_rotation :
    minMotionSkipR 0 0 (-1) ∧ minMotionSkip ⟨0, 0, -1⟩ = true := by
  constructor
  · constructor
    · rw [show (0:ℝ) ^ 2 + 0 ^ 2 = 0 by norm_num, Real.sqrt_zero]
      norm_num
    · norm_num
  · simp only [minMotionSkip, Bool.and_eq_true, decide_eq_true_eq]
    norm_num

/-- Claim C9: a cycle skipped by the minimum-motion check leaves the whole filter
state, in particular last_pose, unchanged, so the delta of the next processed
cycle is measured from the pose of the last fully processed cycle and
accumulates the displacement of the intervening skipped cycle. -/
theorem last_pose_skip_accumulation
    (angle_diff : ℚ → ℚ → ℚ) (cycle : List Particle → PoseTuple → List Particle)
    (s : FilterState) (last : PoseTuple) (ps : List Particle) (m1 m2 : PoseTuple)
    (hlast : s.last_pose = some last) (hps : s.particles = some ps)
    (hskip : minMotionSkip (delta_pose angle_diff last m1) = true) :
    (updateStep angle_diff cycle s m1).1 = s ∧
      (minMotionSkip (delta_pose angle_diff last m2) = false →
        (updateStep angle_diff cycle (updateStep angle_diff cycle s m1).1 m2).2 =
          some (delta_pose angle_diff last m2)) := by
  obtain ⟨lp, prt⟩ := s
  simp only at hlast hps
  subst hlast
  subst hps
  have hstep1 : updateStep angle_diff cycle ⟨some last, some ps⟩ m1 =
      (⟨some last, some ps⟩, none) := by
    simp [updateStep, hskip]
  refine ⟨by rw [hstep1], fun h2 => ?_⟩
  rw [hstep1]
  simp [updateStep, h2]

/-- Witness for claim C9: start at pose (0,0,0); a message at x = 1/200 is below
both thresholds and skipped; the next message at x = 1 is processed with the
delta measured from (0,0,0), accumulating the skipped displacement. -/
theorem last_pose_skip_accumulation_witness :
    (updateStep (fun a b => a - b) (fun l _ => l)
        ⟨some ⟨0, 0, 0⟩, some []⟩ ⟨1/200, 0, 0⟩).1 = ⟨some ⟨0, 0, 0⟩, some []⟩ ∧
      (updateStep (fun a b => a - b) (fun l _ => l)
          (updateStep (fun a b => a - b) (fun l _ => l)
            ⟨some ⟨0, 0, 0⟩, some []⟩ ⟨1/200, 0, 0⟩).1 ⟨1, 0, 0⟩).2 =
        some (delta_pose (fun a b => a - b) ⟨0, 0, 0⟩ ⟨1, 0, 0⟩) := by
  have hskip : minMotionSkip
      (delta_pose (fun a b => a - b) ⟨0, 0, 0⟩ ⟨1/200, 0, 0⟩) = true := by
    simp only [delta_pose, minMotionSkip, Bool.and_eq_true, decide_eq_true_eq]
    norm_num
  have hnot : minMotionSkip
      (delta_pose (fun a b => a - b) ⟨0, 0, 0⟩ ⟨1, 0, 0⟩) = false := by
    rw [Bool.eq_false_iff]
    intro hc
    rw [minMotionSkip, Bool.and_eq_true, decide_eq_true_eq, decide_eq_true_eq] at hc
    norm_num [delta_pose] at hc
  have h := last_pose_skip_accumulation (fun a b => a - b) (fun l _ => l)
    ⟨some ⟨0, 0, 0⟩, some []⟩ ⟨0, 0, 0⟩ [] ⟨1/200, 0, 0⟩ ⟨1, 0, 0⟩ rfl rfl hskip
  exact ⟨h.1, h.2 hnot⟩

end MotionThresholdTheorems

/-- numpy indexing of a length-360 array: an integer index is reduced modulo 360,
negative indices counting from the end.  The code produces indices in
[-180, 180] (line 262), so this wraparound is exactly what expected_lidar[idx]
performs. -/
def bucketOf (idx : ℤ) : Fin 360 := ⟨(idx % 360).toNat, by omega⟩

/-- Lines 260-274, one iteration of the loop over the (rounded bearing, range)
pairs: collapse a range beyond the 3.0 cutoff to 0 (lines 270-271), then store
it at the bucket when the stored entry is NaN (modelled none) or larger
(lines 273-274). -/
def updateBucket (acc : Fin 360 → Option ℚ) (pr : ℤ × ℚ) : Fin 360 → Option ℚ :=
  let rho := if 3 < pr.2 then 0 else pr.2
  let idx := bucketOf pr.1
  fun j =>
    if j = idx then
      match acc idx with
      | none => some rho
      | some v => if rho < v then some rho else some v
    else acc j

/-- Lines 257-276: fold all (rounded bearing, range) pairs into the 360-entry
expected range array, then replace the untouched (NaN) buckets by 0 (line 276). -/
def expectedLidar (prs : List (ℤ × ℚ)) (j : Fin 360) : ℚ :=
  ((prs.foldl updateBucket (fun _ => none)) j).getD 0

/-- The collapsed ranges (beyond-3.0 cutoff applied) of the obstacles mapping to
bucket j, in input order. -/
def bucketRanges (prs : List (ℤ × ℚ)) (j : Fin 360) : List ℚ :=
  (prs.filter (fun pr => decide (bucketOf pr.1 = j))).map
    (fun pr => if 3 < pr.2 then 0 else pr.2)

/-- Minimum of a list of ranges, 0 for the empty list (the line 276 default). -/
def bucketMin : List ℚ → ℚ
  | [] => 0
  | r :: rs => rs.foldl min r

/-- Line 287: the absolute difference of actual and expected range per degree
bucket, over the 360 one-degree buckets. -/
def diffLidar (actual expected : Fin 360 → ℚ) : List ℚ :=
  (List.finRange 360).map (fun i => |actual i - expected i|)

/-- Line 293: the particle weight is the sum of (1 / d)^3 over the strictly
positive entries of the difference array.  The mask of line 286 (actual > 0) is
computed by the code but never applied to this sum. -/
def sensorWeight (actual expected : Fin 360 → ℚ) : ℚ :=
  (((diffLidar actual expected).filter (fun d => decide (0 < d))).map
    (fun d => (1 / d) ^ 3)).sum

/-- Modelled from the spec: the weight as the specification words describe it,
summing only buckets whose actual reading is strictly positive and whose
absolute difference is strictly positive; stated for comparison with
sensorWeight. -/
def sensorWeightSpec (actual expected : Fin 360 → ℚ) : ℚ :=
  (((List.finRange 360).filter
      (fun i => decide (0 < actual i) && decide (0 < |actual i - expected i|))).map
    (fun i => (1 / |actual i - expected i|) ^ 3)).sum

section SensorTheorems

/-- Helper: filtering before mapping and summing is summing an if-guarded map. -/
theorem sum_map_filter_eq {α : Type} (l : List α) (p : α → Bool) (g : α → ℚ) :
    ((l.filter p).map g).sum = (l.map (fun a => if p a then g a else 0)).sum := by
  induction l with
  | nil => rfl
  | cons a l ih =>
    by_cases h : p a
    · simp [List.filter_cons, h, ih]
    · simp [List.filter_cons, h, ih]

/-- Helper: the line 293 sum, reindexed as a sum over the buckets whose actual
and expected ranges differ. -/
theorem sensorWeight_char (actual expected : Fin 360 → ℚ) :
    sensorWeight actual expected =
      ∑ i ∈ Finset.univ.filter (fun i => actual i ≠ expected i),
        (1 / |actual i - expected i|) ^ 3 := by
  rw [sensorWeight, diffLidar, sum_map_filter_eq, List.map_map, ← Fin.sum_univ_def,
    Finset.sum_filter]
  apply Finset.sum_congr rfl
  intro i _
  by_cases h : actual i = expected i
  · simp [Function.comp, h]
  · have habs : 0 < |actual i - expected i| := abs_pos.mpr (sub_ne_zero.mpr h)
    simp [Function.comp, h, habs]

/-- Claim C1 amended: for every particle and scan, a degree bucket contributes
the term (1 / d)^3, d the absolute difference of actual and expected range, if
and only if that difference is nonzero, regardless of the sign of the actual
reading (the actual > 0 mask of line 286 is never applied); the weight is the
sum of these contributions. -/
theorem sensorWeight_eq_sum_over_nonzero_diff (actual expected : Fin 360 → ℚ) :
    sensorWeight actual expected =
      ∑ i ∈ Finset.univ.filter (fun i => actual i ≠ expected i),
        (1 / |actual i - expected i|) ^ 3 :=
  sensorWeight_char actual expected

/-- Claim C1 counterexample: with every actual reading 0 (non-positive) and a
single expected range of 2, the code weight is 1/8 - the bucket contributes even
though its actual reading is non-positive - while the weight described by the
claim is 0. -/
theorem sensorWeight_counterexample :
    sensorWeight (fun _ => 0) (fun i => if i = 0 then 2 else 0) = 1 / 8 ∧
      sensorWeightSpec (fun _ => 0) (fun i => if i = 0 then 2 else 0) = 0 ∧
      ((1:ℚ) / 8) ≠ 0 := by
  refine ⟨?_, ?_, by norm_num⟩
  · rw [sensorWeight_char]
    have hset : (Finset.univ.filter
        (fun i : Fin 360 => (fun _ : Fin 360 => (0:ℚ)) i ≠ (if i = 0 then 2 else 0))) =
        ({0} : Finset (Fin 360)) := by
      ext i
      by_cases hi : i = 0
      · subst hi
        simp
      · simp [hi]
    rw [hset, Finset.sum_singleton]
    norm_num
  · rw [sensorWeightSpec]
    have hnil : (List.finRange 360).filter
        (fun i => decide ((0:ℚ) < (fun _ : Fin 360 => (0:ℚ)) i) &&
          decide (0 < |(fun _ : Fin 360 => (0:ℚ)) i - (if i = 0 then 2 else 0)|)) = [] := by
      apply List.filter_eq_nil_iff.mpr
      intro i _
      simp
    rw [hnil]
    rfl

/-- One minimum-accumulation step on an optional current minimum. -/
def minStep (o : Option ℚ) (r : ℚ) : Option ℚ :=
  some (match o with
    | none => r
    | some v => if r < v then r else v)

/-- Helper: updateBucket writes the minimum-with step at the matching bucket. -/
theorem updateBucket_eq (acc : Fin 360 → Option ℚ) (pr : ℤ × ℚ) (j : Fin 360)
    (h : bucketOf pr.1 = j) :
    updateBucket acc pr j = minStep (acc j) (if 3 < pr.2 then 0 else pr.2) := by
  simp only [updateBucket, minStep]
  rw [if_pos h.symm, h]
  cases acc j with
  | none => rfl
  | some v =>
    show (if (if 3 < pr.2 then 0 else pr.2) < v
        then some (if 3 < pr.2 then 0 else pr.2) else some v) =
      some (if (if 3 < pr.2 then 0 else pr.2) < v
        then (if 3 < pr.2 then 0 else pr.2) else v)
    split_ifs <;> rfl

/-- Helper: updateBucket leaves other buckets unchanged. -/
theorem updateBucket_ne (acc : Fin 360 → Option ℚ) (pr : ℤ × ℚ) (j : Fin 360)
    (h : ¬ bucketOf pr.1 = j) :
    updateBucket acc pr j = acc j := by
  rw [updateBucket]
  simp only [if_neg (fun hc => h (Eq.symm hc))]

/-- Helper: the matching-bucket range list of a cons whose head maps to j. -/
theorem bucketRanges_cons_pos (pr : ℤ × ℚ) (rest : List (ℤ × ℚ)) (j : Fin 360)
    (h : bucketOf pr.1 = j) :
    bucketRanges (pr :: rest) j =
      (if 3 < pr.2 then 0 else pr.2) :: bucketRanges rest j := by
  rw [bucketRanges, bucketRanges, List.filter_cons, if_pos (by simp [h]), List.map_cons]

/-- Helper: the matching-bucket range list of a cons whose head misses j. -/
theorem bucketRanges_cons_neg (pr : ℤ × ℚ) (rest : List (ℤ × ℚ)) (j : Fin 360)
    (h : ¬ bucketOf pr.1 = j) :
    bucketRanges (pr :: rest) j = bucketRanges rest j := by
  rw [bucketRanges, bucketRanges, List.filter_cons, if_neg (by simp [h])]

/-- Helper: the fold of updateBucket observed at one bucket is the fold of
minStep over the ranges mapping to that bucket. -/
theorem foldl_updateBucket_apply (prs : List (ℤ × ℚ)) (acc : Fin 360 → Option ℚ)
    (j : Fin 360) :
    (prs.foldl updateBucket acc) j = (bucketRanges prs j).foldl minStep (acc j) := by
  induction prs generalizing acc with
  | nil => rfl
  | cons pr rest ih =>
    rw [List.foldl_cons, ih]
    by_cases h : bucketOf pr.1 = j
    · rw [bucketRanges_cons_pos pr rest j h, List.foldl_cons, updateBucket_eq acc pr j h]
    · rw [bucketRanges_cons_neg pr rest j h, updateBucket_ne acc pr j h]

/-- Helper: an if-written minimum is a minimum. -/
theorem ite_lt_eq_min (v r : ℚ) : (if r < v then r else v) = min v r := by
  rcases lt_or_ge r v with h | h
  · rw [if_pos h, min_eq_right h.le]
  · rw [if_neg (not_lt.mpr h), min_eq_left h]

/-- Helper: folding minStep from a present value folds min. -/
theorem foldl_minStep_some (l : List ℚ) (v : ℚ) :
    l.foldl minStep (some v) = some (l.foldl min v) := by
  induction l generalizing v with
  | nil => rfl
  | cons r l ih =>
    rw [List.foldl_cons, List.foldl_cons,
      show minStep (some v) r = some (min v r) by rw [minStep]; rw [ite_lt_eq_min], ih]

/-- Helper: the expected range at a bucket is the minimum of the collapsed
ranges mapping to it, 0 when there are none. -/
theorem expectedLidar_char (prs : List (ℤ × ℚ)) (j : Fin 360) :
    expectedLidar prs j = bucketMin (bucketRanges prs j) := by
  rw [expectedLidar, foldl_updateBucket_apply]
  cases hbr : bucketRanges prs j with
  | nil => rfl
  | cons r l =>
    rw [List.foldl_cons, show minStep none r = some r from rfl, foldl_minStep_some]
    rfl

/-- Claim C3 amended: for every particle and bucket, the expected range is the
minimum over the obstacles mapping to that bucket of their ranges with the
beyond-3.0 collapse to 0 applied before the minimum, and 0 for a bucket with no
obstacle; in particular a bucket holding obstacles at ranges 2.0 and 4.0 yields
0 (the 4.0 collapses to 0, which then wins the minimum), not 2.0. -/
theorem expectedLidar_min_collapsed :
    (∀ (prs : List (ℤ × ℚ)) (j : Fin 360),
        expectedLidar prs j = bucketMin (bucketRanges prs j)) ∧
      expectedLidar [(0, 2), (0, 4)] 0 = 0 :=
  ⟨expectedLidar_char, by decide⟩

/-- Claim C3 counterexample: a bucket holding obstacles at ranges 2.0 and 4.0
has expected range 0, not 2.0 as the claim states. -/
theorem expectedLidar_counterexample :
    expectedLidar [(0, 2), (0, 4)] 0 = 0 ∧ (0 : ℚ) ≠ 2 :=
  ⟨by decide, by norm_num⟩

end SensorTheorems

open Real

noncomputable section

/-- numpy.arctan2(y, x): the argument of the complex number x + y i, in
(-pi, pi]. -/
def arctan2 (y x : ℝ) : ℝ := Complex.arg ⟨x, y⟩

/-- Line 250 inner normalization arctan2(sin t, cos t): maps any angle to its
representative in (-pi, pi]. -/
def renorm (t : ℝ) : ℝ := arctan2 (Real.sin t) (Real.cos t)

/-- numpy.rad2deg. -/
def rad2deg (x : ℝ) : ℝ := x * 180 / π

/-- numpy rounding: round half to even. -/
def roundHalfEven (x : ℝ) : ℤ :=
  if Int.fract x = 1 / 2 then (if Even ⌊x⌋ then ⌊x⌋ else ⌊x⌋ + 1) else round x

/-- Lines 236-245: the pre-normalization bearing of obstacle (ox, oy) seen from
a particle at (px, py) with heading theta: the world-frame arctan2 of the
shifted obstacle with the heading ADDED (line 245 is phi_rad += particle.theta). -/
def obstacleBearingRad (px py theta ox oy : ℝ) : ℝ :=
  arctan2 (oy - py) (ox - px) + theta

/-- Modelled from the spec: the bearing as the specification words describe it,
with the particle heading SUBTRACTED from the world-frame bearing; stated only
for comparison with obstacleBearingRad. -/
def obstacleBearingRadSpec (px py theta ox oy : ℝ) : ℝ :=
  arctan2 (oy - py) (ox - px) - theta

/-- Line 250: convert the renormalized bearing to degrees and round half-even,
giving the integer degree value stored in phi. -/
def degIndex (t : ℝ) : ℤ := roundHalfEven (rad2deg (renorm t))

/-- Lines 236-262 composed: the integer degree index of an obstacle as seen from
a particle, as stored into idx at line 262 (possibly negative). -/
def obstacleBearingDeg (px py theta ox oy : ℝ) : ℤ :=
  degIndex (obstacleBearingRad px py theta ox oy)

end

section BearingTheorems

/-- Helper: the complex number with the cosine and sine of t as parts is the
point on the unit circle at angle t. -/
theorem mk_eq_cos_add_sin (t : ℝ) :
    (⟨Real.cos t, Real.sin t⟩ : ℂ) = Complex.cos t + Complex.sin t * Complex.I := by
  apply Complex.ext <;>
    simp [Complex.cos_ofReal_re, Complex.sin_ofReal_re, Complex.cos_ofReal_im,
      Complex.sin_ofReal_im]

/-- Helper: the line 250 normalization is reduction into (-pi, pi] modulo 2 pi. -/
theorem renorm_eq_toIocMod (x : ℝ) :
    renorm x = toIocMod Real.two_pi_pos (-π) x := by
  rw [renorm, arctan2, mk_eq_cos_add_sin, ← Complex.exp_mul_I, Complex.arg_exp_mul_I]

/-- Helper: the normalized bearing lies in (-pi, pi]. -/
theorem renorm_mem_Ioc (x : ℝ) : renorm x ∈ Set.Ioc (-π) π := by
  rw [renorm_eq_toIocMod]
  have h := toIocMod_mem_Ioc Real.two_pi_pos (-π) x
  rwa [show -π + 2 * π = π by ring] at h

/-- Helper: the normalization fixes angles already in (-pi, pi]. -/
theorem renorm_eq_self {x : ℝ} (hx : x ∈ Set.Ioc (-π) π) : renorm x = x := by
  rw [renorm_eq_toIocMod, toIocMod_eq_self]
  rwa [show -π + 2 * π = π by ring]

/-- Claim C2 amended: the code obtains the robot-relative bearing by ADDING the
particle heading theta to the world-frame bearing atan2(oy - y, ox - x) (line
245), and the atan2(sin, cos) renormalization of line 250 maps the result to
its unique representative modulo 2 pi in (-pi, pi]. -/
theorem obstacleBearing_renorm (px py theta ox oy : ℝ) :
    renorm (obstacleBearingRad px py theta ox oy) =
      toIocMod Real.two_pi_pos (-π) (arctan2 (oy - py) (ox - px) + theta) := by
  rw [obstacleBearingRad, renorm_eq_toIocMod]

/-- Claim C2 counterexample: a particle at the origin with heading pi/2 and an
obstacle at (1, 0): the code bearing (heading added) renormalizes to pi/2, the
claim bearing (heading subtracted) renormalizes to -(pi/2), and they differ. -/
theorem obstacleBearing_add_vs_sub :
    renorm (obstacleBearingRad 0 0 (π / 2) 1 0) = π / 2 ∧
      renorm (obstacleBearingRadSpec 0 0 (π / 2) 1 0) = -(π / 2) ∧
      (π / 2 : ℝ) ≠ -(π / 2) := by
  have harct : arctan2 (0 - 0) (1 - 0) = 0 := by
    rw [arctan2, show ((⟨1 - 0, 0 - 0⟩ : ℂ)) = 1 by apply Complex.ext <;> simp]
    exact Complex.arg_one
  refine ⟨?_, ?_, ?_⟩
  · rw [obstacleBearingRad, harct, zero_add]
    exact renorm_eq_self ⟨by linarith [Real.pi_pos], by linarith [Real.pi_pos]⟩
  · rw [obstacleBearingRadSpec, harct, zero_sub]
    exact renorm_eq_self ⟨by linarith [Real.pi_pos], by linarith [Real.pi_pos]⟩
  · intro hc
    have := Real.pi_pos
    linarith

/-- Helper: half-even rounding is at most one above the floor. -/
theorem roundHalfEven_le (z : ℝ) : roundHalfEven z ≤ ⌊z⌋ + 1 := by
  rw [roundHalfEven]
  split_ifs with h1 h2
  · exact le_add_of_nonneg_right zero_le_one
  · exact le_refl _
  · rw [round_eq]
    calc ⌊z + 1 / 2⌋ ≤ ⌊z + 1⌋ := Int.floor_le_floor (by linarith)
    _ = ⌊z⌋ + 1 := by rw [Int.floor_add_one]

/-- Helper: half-even rounding is at least the floor. -/
theorem roundHalfEven_ge (z : ℝ) : ⌊z⌋ ≤ roundHalfEven z := by
  rw [roundHalfEven]
  split_ifs with h1 h2
  · exact le_refl _
  · exact le_add_of_nonneg_right zero_le_one
  · rw [round_eq]
    exact Int.floor_le_floor (by linarith)

/-- Helper: the rounded degree value of any bearing lies in [-180, 180]. -/
theorem degIndex_bounds (x : ℝ) : -180 ≤ degIndex x ∧ degIndex x ≤ 180 := by
  obtain ⟨hlo, hhi⟩ := renorm_mem_Ioc x
  have hπ := Real.pi_pos
  have hzlo : (-180 : ℝ) < rad2deg (renorm x) := by
    rw [rad2deg, lt_div_iff₀ hπ]
    nlinarith
  have hzhi : rad2deg (renorm x) ≤ 180 := by
    rw [rad2deg, div_le_iff₀ hπ]
    nlinarith
  constructor
  · refine le_trans ?_ (roundHalfEven_ge (rad2deg (renorm x)))
    rw [Int.le_floor]
    push_cast
    linarith
  · rcases lt_or_eq_of_le hzhi with hlt | heq
    · refine le_trans (roundHalfEven_le (rad2deg (renorm x))) ?_
      have hfl : ⌊rad2deg (renorm x)⌋ < 180 := by
        rw [Int.floor_lt]
        push_cast
        linarith
      omega
    · show roundHalfEven (rad2deg (renorm x)) ≤ 180
      rw [heq, roundHalfEven, show (180 : ℝ) = ((180 : ℤ) : ℝ) by norm_num,
        if_neg (by rw [Int.fract_intCast]; norm_num), round_intCast]

/-- Claim C4 amended: the code rounds the renormalized bearing in degrees under
the deterministic half-to-even convention to an integer in [-180, 180] (not
[0, 359]) and uses it as a possibly negative wraparound index into the 360-entry
array, equivalent to reducing it modulo 360 into [0, 359]; a local obstacle at
range 2 and bearing half a degree rounds into bucket 0. -/
theorem degIndex_range_and_bucket :
    (∀ x : ℝ, -180 ≤ degIndex x ∧ degIndex x ≤ 180) ∧
      (∀ i : ℤ, ((bucketOf i : ℕ) : ℤ) = i % 360) ∧
      obstacleBearingDeg 0 0 0 (2 * Real.cos (π / 360)) (2 * Real.sin (π / 360)) = 0 ∧
      (bucketOf (obstacleBearingDeg 0 0 0 (2 * Real.cos (π / 360))
        (2 * Real.sin (π / 360))) : ℕ) = 0 := by
  have hπ := Real.pi_pos
  have hmem : π / 360 ∈ Set.Ioc (-π) π := ⟨by linarith, by linarith⟩
  have harct : arctan2 (2 * Real.sin (π / 360) - 0) (2 * Real.cos (π / 360) - 0) =
      π / 360 := by
    rw [arctan2]
    rw [show ((⟨2 * Real.cos (π / 360) - 0, 2 * Real.sin (π / 360) - 0⟩ : ℂ)) =
        ((2 : ℝ) : ℂ) * (⟨Real.cos (π / 360), Real.sin (π / 360)⟩ : ℂ) by
      apply Complex.ext <;> simp]
    rw [Complex.arg_real_mul _ (by norm_num : (0:ℝ) < 2), mk_eq_cos_add_sin]
    exact Complex.arg_cos_add_sin_mul_I hmem
  have hdeg : obstacleBearingDeg 0 0 0 (2 * Real.cos (π / 360))
      (2 * Real.sin (π / 360)) = 0 := by
    rw [obstacleBearingDeg, obstacleBearingRad, harct, add_zero, degIndex,
      renorm_eq_self hmem]
    have hhalf : rad2deg (π / 360) = 1 / 2 := by
      rw [rad2deg, div_eq_div_iff hπ.ne' (by norm_num : (2:ℝ) ≠ 0)]
      ring
    have hfloor : ⌊(1 / 2 : ℝ)⌋ = 0 := by
      rw [Int.floor_eq_zero_iff]
      exact Set.mem_Ico.mpr ⟨by norm_num, by norm_num⟩
    rw [hhalf, roundHalfEven,
      if_pos (Int.fract_eq_self.mpr ⟨by norm_num, by norm_num⟩),
      if_pos (by rw [hfloor]; exact even_zero)]
    exact hfloor
  refine ⟨degIndex_bounds, ?_, hdeg, ?_⟩
  · intro i
    show ((Int.toNat (i % 360) : ℕ) : ℤ) = i % 360
    exact Int.toNat_of_nonneg (Int.emod_nonneg i (by norm_num))
  · rw [hdeg]
    rfl

/-- Claim C4 counterexample: an obstacle one unit in negative y from a particle
at the origin with heading 0 gets degree index -90, which is not in [0, 359];
the bucket actually used through the wraparound indexing is 270 (not the integer
in [0, 359] nearest to the bearing). -/
theorem degIndex_counterexample :
    obstacleBearingDeg 0 0 0 0 (-1) = -90 ∧
      ¬(0 ≤ obstacleBearingDeg 0 0 0 0 (-1)) ∧
      (bucketOf (obstacleBearingDeg 0 0 0 0 (-1)) : ℕ) = 270 := by
  have hπ := Real.pi_pos
  have harg : arctan2 (-1 - 0) (0 - 0) = -(π / 2) := by
    rw [arctan2, show ((⟨0 - 0, -1 - 0⟩ : ℂ)) = -Complex.I by apply Complex.ext <;> simp]
    exact Complex.arg_neg_I
  have hmem : -(π / 2) ∈ Set.Ioc (-π) π := ⟨by linarith, by linarith⟩
  have hbear : obstacleBearingDeg 0 0 0 0 (-1) = -90 := by
    rw [obstacleBearingDeg, obstacleBearingRad, harg, add_zero, degIndex,
      renorm_eq_self hmem]
    have hdeg : rad2deg (-(π / 2)) = -90 := by
      rw [rad2deg, div_eq_iff hπ.ne']
      ring
    rw [hdeg, roundHalfEven, show (-90 : ℝ) = ((-90 : ℤ) : ℝ) by norm_num,
      if_neg (by rw [Int.fract_intCast]; norm_num), round_intCast]
  refine ⟨hbear, ?_, ?_⟩
  · rw [hbear]
    decide
  · rw [hbear]
    rfl

end BearingTheorems

